import Mathlib

/-!
Shallow embedding of `src/external/fv3util/fv3util/_legacy_restart.py`
(the restart-file loader and tile-wide distribution utilities of the
fv3gfs-fortran wrapper), together with theorems settling the specified
properties of that module.

Python dictionaries are modelled as insertion-ordered association lists
`List (String × V)`; a well-formed dict has pairwise-distinct keys
(`(keys d).Nodup`).  `dinsert` models the statement `d[k] = v` (update in
place when the key is present, append otherwise) and `lookup?` models
`d.get(k)`.
-/

section DictModel

variable {V : Type}

/-- The key list of an association list modelling a Python dict. -/
def keys (d : List (String × V)) : List String := d.map Prod.fst

/-- Python dict lookup `d.get(k)` (keys of a real dict are unique, so
first-match lookup agrees with dict semantics). -/
def lookup? : List (String × V) → String → Option V
  | [], _ => none
  | p :: rest, k => if p.1 = k then some p.2 else lookup? rest k

/-- Python dict assignment `d[k] = v`: replaces the value in place when the
key is already present, otherwise appends the new pair at the end. -/
def dinsert (d : List (String × V)) (k : String) (v : V) : List (String × V) :=
  if k ∈ keys d then d.map (fun p => if p.1 = k then (k, v) else p)
  else d ++ [(k, v)]

/-- `map_keys` from `_legacy_restart.py` lines 134-141: first insert
`new_dict[new_key] = old_dict[old_key]` for every `(old_key, new_key)` pair
of `old_keys_to_new` whose `old_key` occurs in `old_dict`, then pass through
every key of `old_dict` that is not a key of `old_keys_to_new`.  (The Python
second loop iterates over `set(old_dict.keys()).difference(old_keys_to_new.keys())`,
whose iteration order is unspecified; the pass-through keys are pairwise
distinct and absent from the first phase only collide with it independently
of order, so iterating them in `old_dict` order builds a dict with the same
contents.) -/
def map_keys (old_dict : List (String × V)) (old_keys_to_new : List (String × String)) :
    List (String × V) :=
  let new_dict := old_keys_to_new.foldl
    (fun nd p =>
      match lookup? old_dict p.1 with
      | some v => dinsert nd p.2 v
      | none => nd) []
  (old_dict.filter (fun q => decide (lookup? old_keys_to_new q.1 = none))).foldl
    (fun nd q => dinsert nd q.1 q.2) new_dict

/-- The effective renaming `map_keys` applies to a single key: its image
under `old_keys_to_new` when mapped, the key itself otherwise. -/
def newName (m : List (String × String)) (k : String) : String :=
  (lookup? m k).getD k

/-- The pairs inserted by the first loop of `map_keys`: one `(new_key, value)`
pair for each mapping entry whose old key occurs in `old_dict`. -/
def mappedPairs (old_dict : List (String × V)) (m : List (String × String)) :
    List (String × V) :=
  m.filterMap (fun p => (lookup? old_dict p.1).map (fun v => (p.2, v)))

/-- The pairs passed through by the second loop of `map_keys`: the entries of
`old_dict` whose key is not a key of the renaming dict. -/
def passPairs (old_dict : List (String × V)) (m : List (String × String)) :
    List (String × V) :=
  old_dict.filter (fun q => decide (lookup? m q.1 = none))

end DictModel

section BroadcastModel

/-- Communicators in play inside `broadcast_state`: the full communicator
`comm` and the per-tile communicator `tile_comm` obtained from `comm.Split`. -/
inductive CommId
  | global
  | tile
  deriving DecidableEq, Repr

/-- One collective operation issued by a rank inside `broadcast_state`:
the name-list broadcast, a metadata-list broadcast
(`communicator.bcast_metadata_list`), a per-field scatter
(`partitioner.tile.scatter`), or the time broadcast, each tagged with the
communicator it runs on. -/
inductive Op
  | bcastNameList (c : CommId)
  | bcastMetadataList (c : CommId)
  | scatter (c : CommId) (name : String)
  | bcastTime (c : CommId)
  deriving DecidableEq, Repr

/-- Sequence of collective operations issued by `broadcast_master`
(lines 56-63): name-list broadcast and metadata-list broadcast on
`tile_comm`, one scatter on `tile_comm` per name of `name_list`, then the
time broadcast issued on the GLOBAL communicator `comm` (line 63). -/
def broadcast_master_ops (name_list : List String) : List Op :=
  [Op.bcastNameList CommId.tile, Op.bcastMetadataList CommId.tile]
    ++ name_list.map (Op.scatter CommId.tile)
    ++ [Op.bcastTime CommId.global]

/-- Sequence of collective operations issued by `broadcast_client`
(lines 65-75), parameterised by the name list it receives from the first
broadcast: name-list broadcast, metadata-list broadcast and a scatter per
name, then a SECOND metadata-list broadcast and a second scatter per name
(lines 70-72), then the time broadcast issued on `tile_comm` (line 73). -/
def broadcast_client_ops (name_list : List String) : List Op :=
  [Op.bcastNameList CommId.tile, Op.bcastMetadataList CommId.tile]
    ++ name_list.map (Op.scatter CommId.tile)
    ++ [Op.bcastMetadataList CommId.tile]
    ++ name_list.map (Op.scatter CommId.tile)
    ++ [Op.bcastTime CommId.tile]

/-- Number of occurrences of an operation in a trace. -/
def countOp (ops : List Op) (o : Op) : Nat :=
  (ops.filter (fun x => x == o)).length

/-- The characters of a Python string, as one-character strings: iterating
over the Python string `'time'` yields `'t'`, `'i'`, `'m'`, `'e'`. -/
def pythonStringIter (s : String) : List String :=
  s.data.map (fun c => String.mk [c])

/-- The name list computed by `broadcast_master` (line 57):
`list(set(state.keys()).difference('time'))`.  `set.difference` takes an
ITERABLE, and iterating the string `'time'` yields its characters, so the
set removed is the four one-character keys, not the key `'time'`.  Set
iteration order is unspecified; keeping the key order preserves the
contents. -/
def master_name_list (state_keys : List String) : List String :=
  state_keys.filter (fun k => decide (k ∉ pythonStringIter "time"))

end BroadcastModel

section FileModel

/-- Whether a Python string starts with a slash (`b.startswith('/')`). -/
def starts_with_slash (s : String) : Bool :=
  match s.data with
  | [] => false
  | c :: _ => c = '/'

/-- Whether a Python string ends with a slash (`a.endswith('/')`). -/
def ends_with_slash (s : String) : Bool :=
  match s.data.getLast? with
  | some c => c = '/'
  | none => false

/-- `os.path.join(a, b)` for POSIX paths and two components. -/
def os_path_join (a b : String) : String :=
  if starts_with_slash b then b
  else if a = "" then b
  else if ends_with_slash a then a ++ b
  else a ++ "/" ++ b

/-- `prepend_label` (lines 144-148): returns the filename unchanged when
`label` is `None`, otherwise the f-string `f'{label}.{filename}'`. -/
def prepend_label (filename : String) (label : Option String) : String :=
  match label with
  | some l => l ++ "." ++ filename
  | none => filename

/-- The default value of `open_restart`s `label` argument (line 22):
the empty STRING, not `None`. -/
def open_restart_default_label : Option String := some ""

/-- `RESTART_NAMES` (line 13): components every restart set must provide. -/
def RESTART_NAMES : List String := ["fv_core.res", "fv_srf_wnd.res", "fv_tracer.res"]

/-- `RESTART_OPTIONAL_NAMES` (line 14): components absent from dycore-only
runs. -/
def RESTART_OPTIONAL_NAMES : List String := ["sfc_data", "phy_data"]

/-- `restart_filenames` (lines 92-98), with `filesystem.is_file` abstracted
as the predicate `is_file`.  The generator yields, in order over
`RESTART_NAMES + RESTART_OPTIONAL_NAMES`, the joined filename whenever the
component is required or the file exists. -/
def restart_filenames (dirname : String) (tile_index : Nat) (label : Option String)
    (is_file : String → Bool) : List String :=
  let suffix := ".tile" ++ toString (tile_index + 1) ++ ".nc"
  (RESTART_NAMES ++ RESTART_OPTIONAL_NAMES).filterMap (fun name =>
    let filename := os_path_join dirname (prepend_label name label ++ suffix)
    if name ∈ RESTART_NAMES ∨ is_file filename then some filename else none)

/-- The filename `restart_filenames` builds for one component name. -/
def restart_filename_of (dirname : String) (tile_index : Nat) (label : Option String)
    (name : String) : String :=
  os_path_join dirname (prepend_label name label ++ (".tile" ++ toString (tile_index + 1) ++ ".nc"))

end FileModel

section RankSuffix

/-- Python exceptions the rank-suffix computation can raise. -/
inductive PyError
  | valueError (msg : String)
  | zeroDivisionError
  deriving DecidableEq, Repr

/-- `f'{count:04}'`: decimal digits zero-padded on the left to width 4. -/
def pad4 (n : Nat) : String :=
  let s := toString n
  if 4 ≤ s.length then s else String.mk (List.replicate (4 - s.length) '0') ++ s

/-- Modelled from the spec: `get_tile_index` is imported from the
`partitioner` module, which is not among the provided sources.  Per the
glossary (a tile is one cubed-sphere face owned by a contiguous subset of
ranks, six tiles in total) it is the rank's tile number
`rank // (total_ranks // 6)`, raising `ZeroDivisionError` like any Python
integer division when the per-tile rank count is zero. -/
def get_tile_index (rank total_ranks : Nat) : Except PyError Nat :=
  if total_ranks / 6 = 0 then Except.error PyError.zeroDivisionError
  else Except.ok (rank / (total_ranks / 6))

/-- `get_rank_suffix` (lines 101-113): raises `ValueError` when
`total_ranks` is not divisible by 6, otherwise computes the tile index and
the within-tile count (`rank % ranks_per_tile`, a `ZeroDivisionError` when
`ranks_per_tile` is zero) and formats the suffix, with the 4-digit count
appended only when `total_ranks > 6`. -/
def get_rank_suffix (rank total_ranks : Nat) : Except PyError String :=
  if total_ranks % 6 ≠ 0 then
    Except.error (PyError.valueError
      ("total_ranks must be evenly divisible by 6, was given " ++ toString total_ranks))
  else
    let ranks_per_tile := total_ranks / 6
    match get_tile_index rank total_ranks with
    | Except.error e => Except.error e
    | Except.ok tile_index =>
      let tile := tile_index + 1
      if ranks_per_tile = 0 then Except.error PyError.zeroDivisionError
      else
        let count := rank % ranks_per_tile
        if total_ranks > 6 then Except.ok (".tile" ++ toString tile ++ ".nc." ++ pad4 count)
        else Except.ok (".tile" ++ toString tile ++ ".nc")

end RankSuffix

section RestartState

/-- An xarray `DataArray` at the granularity these claims need: its
dimension names, its attribute dict (string-valued, e.g. `units`), and its
payload, kept opaque as a list of integers.  `copy.deepcopy` and
`array.load()` are identities in this pure model, and
`Quantity.from_data_array` (a class outside this module) is modelled as
preserving the array's dims, attrs and data. -/
structure DataArray where
  dims : List String
  attrs : List (String × String)
  data : List Int
  deriving DecidableEq, Repr

/-- One entry of `fortran_info.properties_by_std_name` (an external static
JSON table, taken as a parameter of the model): the standard dimension
names and the units string of a recognised variable. -/
structure VarProperties where
  dims : List String
  units : String
  deriving DecidableEq, Repr

/-- `apply_dims` (lines 116-118):
`da.rename(dict(zip(da.dims[-len(new_dims):], new_dims)))` renames each
dimension through the dict built by zipping the trailing `len(new_dims)`
dimension names with `new_dims` (Python dict construction: later duplicate
keys win, here modelled by building the dict with `dinsert`). -/
def apply_dims (da : DataArray) (new_dims : List String) : DataArray :=
  let mapping := (List.zip (da.dims.drop (da.dims.length - new_dims.length)) new_dims).foldl
    (fun d p => dinsert d p.1 p.2) []
  { da with dims := da.dims.map (fun d => (lookup? mapping d).getD d) }

/-- `apply_restart_metadata` (lines 121-131), with the static table
`properties_by_std_name` as the parameter `props`: variables found in the
table get their standard dims applied and a `units` attribute set; the rest
are deep-copied unchanged. -/
def apply_restart_metadata (props : List (String × VarProperties))
    (state : List (String × DataArray)) : List (String × DataArray) :=
  state.foldl
    (fun new_state p =>
      match lookup? props p.1 with
      | some properties =>
        let da := apply_dims p.2 properties.dims
        dinsert new_state p.1 { da with attrs := dinsert da.attrs "units" properties.units }
      | none => dinsert new_state p.1 p.2) []

/-- The state dictionary built inside `load_partial_state_from_restart_file`
(lines 151-164).  `standard_names` stands for
`fortran_info.get_restart_standard_names()` and `props` for
`fortran_info.properties_by_std_name` (external static tables);
`data_vars` is the dataset's variable dict after
`xr.open_dataset(file).isel(Time=0).drop("Time")`.  The comprehension keeps
a variable when it is named `time` or carries a `units` attribute, and its
name is in `only_names` (defaulted to all current keys). -/
def load_partial_state_internal (standard_names : List (String × String))
    (props : List (String × VarProperties)) (data_vars : List (String × DataArray))
    (only_names : Option (List String)) : List (String × DataArray) :=
  let state := map_keys data_vars standard_names
  let state := apply_restart_metadata props state
  let only := only_names.getD (keys state)
  state.filter (fun p =>
    decide ((p.1 = "time" ∨ lookup? p.2.attrs "units" ≠ none) ∧ p.1 ∈ only))

/-- `load_partial_state_from_restart_file` (lines 151-164) as callers see
it: the Python function body builds `state` and then ends WITHOUT a return
statement, so the call evaluates to `None` — modelled as `none`. -/
def load_partial_state_from_restart_file (standard_names : List (String × String))
    (props : List (String × VarProperties)) (data_vars : List (String × DataArray))
    (only_names : Option (List String)) : Option (List (String × DataArray)) :=
  let _state := load_partial_state_internal standard_names props data_vars only_names
  none

end RestartState

/-- C4: the claim that `map_keys` preserves the number of keys for EVERY
dict and renaming fails: with `old_dict = a ↦ 1, b ↦ 2` and the renaming
`a ↦ b`, the renamed entry collides with the passed-through key `b`, and the
result has a single key. -/
theorem map_keys_card_counterexample :
    (map_keys [("a", 1), ("b", 2)] [("a", "b")]).length ≠
      [("a", (1 : Nat)), ("b", 2)].length := by decide

/-- C5: the claim that every mapped key of `old_dict` survives under its new
name with its original value fails on the same collision: `a`s value 1,
stored under the new name `b`, is overwritten by the pass-through of the
unmapped key `b`, so the result binds `b` to 2, not to 1. -/
theorem map_keys_value_counterexample :
    lookup? (map_keys [("a", 1), ("b", 2)] [("a", "b")]) "b" = some 2 ∧
      ¬ lookup? (map_keys [("a", 1), ("b", 2)] [("a", "b")]) "b" = some (1 : Nat) := by
  decide

/-- C1: at a concrete restart dataset holding one variable `T` renamed to
`air_temperature` with valid metadata, and `only_names = ['air_temperature']`,
the state dict built inside `load_partial_state_from_restart_file` has
exactly the requested key, but the function body ends without a return
statement, so the call itself evaluates to `None` rather than to that
dictionary (its caller `open_restart` then crashes in `state.update(None)`). -/
theorem load_partial_state_returns_none :
    load_partial_state_from_restart_file
        [("T", "air_temperature")]
        [("air_temperature", { dims := ["z", "y", "x"], units := "degK" })]
        [("T", { dims := ["zaxis_1", "yaxis_1", "xaxis_1"], attrs := [], data := [42] })]
        (some ["air_temperature"]) = none ∧
      keys (load_partial_state_internal
        [("T", "air_temperature")]
        [("air_temperature", { dims := ["z", "y", "x"], units := "degK" })]
        [("T", { dims := ["zaxis_1", "yaxis_1", "xaxis_1"], attrs := [], data := [42] })]
        (some ["air_temperature"])) = ["air_temperature"] := by decide

/-- C2: the collective-operation sequence of `broadcast_client` is NOT the
master sequence with placeholder inputs: on the name list `["u"]` the client
issues a second metadata-list broadcast and a second scatter (lines 70-72)
and performs its time broadcast on `tile_comm`, while the master performs a
single metadata broadcast and scatter round and issues the time broadcast on
the global `comm` (line 63). -/
theorem broadcast_client_trace_mismatch :
    broadcast_client_ops ["u"] ≠ broadcast_master_ops ["u"] ∧
      broadcast_master_ops ["u"] =
        [Op.bcastNameList CommId.tile, Op.bcastMetadataList CommId.tile,
          Op.scatter CommId.tile "u", Op.bcastTime CommId.global] ∧
      broadcast_client_ops ["u"] =
        [Op.bcastNameList CommId.tile, Op.bcastMetadataList CommId.tile,
          Op.scatter CommId.tile "u", Op.bcastMetadataList CommId.tile,
          Op.scatter CommId.tile "u", Op.bcastTime CommId.tile] := by decide

/-- C9: on a tile with at least one non-master rank the collective schedules
cannot match: for the name list `["u", "v"]` the master issues one
metadata-list broadcast where the client issues two, and the master's time
broadcast runs on the global communicator, which the client never touches
(it listens on `tile_comm` instead), so the ranks of a tile are not left
with one identical distributed copy of the state. -/
theorem broadcast_time_comm_mismatch :
    countOp (broadcast_master_ops ["u", "v"]) (Op.bcastMetadataList CommId.tile) = 1 ∧
      countOp (broadcast_client_ops ["u", "v"]) (Op.bcastMetadataList CommId.tile) = 2 ∧
      Op.bcastTime CommId.global ∈ broadcast_master_ops ["u", "v"] ∧
      Op.bcastTime CommId.global ∉ broadcast_client_ops ["u", "v"] ∧
      Op.bcastTime CommId.tile ∈ broadcast_client_ops ["u", "v"] := by decide

/-- C3: `set(state.keys()).difference('time')` subtracts the CHARACTERS of
the string `'time'`, not the key `'time'`: on a state with keys
`air_temperature` and `time` the master's name list keeps `time`, so the
timestamp entry is broadcast and scattered like a field; a one-character key
`t` would instead be (wrongly) dropped. -/
theorem master_name_list_retains_time :
    master_name_list ["air_temperature", "time"] = ["air_temperature", "time"] ∧
      master_name_list ["t", "time"] = ["time"] := by decide

/-- C6 counterexample: `total_ranks = 0` is evenly divisible by 6, yet
`get_rank_suffix 0 0` does not return a suffix — the per-tile rank count is
zero and the integer divisions raise `ZeroDivisionError`. -/
theorem get_rank_suffix_zero_counterexample :
    (0 : Nat) % 6 = 0 ∧
      get_rank_suffix 0 0 = Except.error PyError.zeroDivisionError := ⟨rfl, rfl⟩

/-- C6 as amended: `get_rank_suffix` raises the divisibility `ValueError`
exactly when `total_ranks` is not divisible by 6, and for every POSITIVE
`total_ranks` divisible by 6 it returns a suffix string without raising
(at `total_ranks = 0` a `ZeroDivisionError` occurs instead). -/
theorem get_rank_suffix_spec (rank total_ranks : Nat) :
    (total_ranks % 6 ≠ 0 →
      get_rank_suffix rank total_ranks = Except.error (PyError.valueError
        ("total_ranks must be evenly divisible by 6, was given " ++ toString total_ranks))) ∧
      (∀ msg, get_rank_suffix rank total_ranks = Except.error (PyError.valueError msg) →
        total_ranks % 6 ≠ 0) ∧
      (total_ranks % 6 = 0 → 0 < total_ranks →
        ∃ s, get_rank_suffix rank total_ranks = Except.ok s) := by
  refine ⟨?_, ?_, ?_⟩
  · intro h
    unfold get_rank_suffix
    rw [if_pos h]
  · intro msg hmsg h0
    by_cases hz : total_ranks / 6 = 0
    · simp [get_rank_suffix, get_tile_index, h0, hz] at hmsg
    · simp [get_rank_suffix, get_tile_index, h0, hz] at hmsg
      split at hmsg <;> simp_all
  · intro h6 hpos
    have hle : 6 ≤ total_ranks := Nat.le_of_dvd hpos (Nat.dvd_of_mod_eq_zero h6)
    have hz : ¬ total_ranks / 6 = 0 := by
      have h1 : 1 ≤ total_ranks / 6 := (Nat.one_le_div_iff (by omega)).mpr hle
      omega
    by_cases hgt : total_ranks > 6 <;>
      simp [get_rank_suffix, get_tile_index, h6, hz, hgt]

/-- Concrete run of the amended C6 statement: 12 ranks are admissible and
rank 1 receives a suffix. -/
theorem get_rank_suffix_spec_witness :
    ∃ s, get_rank_suffix 1 12 = Except.ok s :=
  (get_rank_suffix_spec 1 12).2.2 (by decide) (by decide)

/-- C7: `restart_filenames` yields the filename of each of the three
required components unconditionally and, after them, the filename of each
optional component exactly when the file exists; an absent optional file
contributes nothing and raises nothing. -/
theorem restart_filenames_spec (dirname : String) (tile_index : Nat) (label : Option String)
    (is_file : String → Bool) :
    restart_filenames dirname tile_index label is_file
      = RESTART_NAMES.map (restart_filename_of dirname tile_index label)
        ++ (RESTART_OPTIONAL_NAMES.filter
              (fun n => is_file (restart_filename_of dirname tile_index label n))).map
            (restart_filename_of dirname tile_index label) := by
  cases h1 : is_file (restart_filename_of dirname tile_index label "sfc_data") <;>
    cases h2 : is_file (restart_filename_of dirname tile_index label "phy_data") <;>
      simp_all [restart_filenames, restart_filename_of, RESTART_NAMES, RESTART_OPTIONAL_NAMES]

/-- C10: `prepend_label` is the identity exactly when the label is `None`;
any string label, the empty string included, is prepended together with a
dot separator.  `open_restart` defaults `label` to the empty string, so by
default the loader searches for dot-prefixed names such as
`.fv_core.res.tile1.nc`. -/
theorem prepend_label_spec (filename l : String) (is_file : String → Bool) :
    prepend_label filename none = filename ∧
      prepend_label filename (some l) = l ++ "." ++ filename ∧
      prepend_label filename (some l) ≠ filename ∧
      restart_filename_of "dir" 0 open_restart_default_label "fv_core.res"
        = "dir/.fv_core.res.tile1.nc" ∧
      "dir/.fv_core.res.tile1.nc" ∈
        restart_filenames "dir" 0 open_restart_default_label is_file := by
  refine ⟨rfl, rfl, ?_, rfl, ?_⟩
  · intro h
    have hlen := congrArg String.length h
    have hdot : (".").length = 1 := rfl
    simp only [prepend_label, String.length_append, hdot] at hlen
    omega
  · exact List.mem_cons_self _ _

section DictLemmas

variable {V : Type}

theorem keys_append (d₁ d₂ : List (String × V)) : keys (d₁ ++ d₂) = keys d₁ ++ keys d₂ :=
  List.map_append _ _ _

theorem keys_cons (p : String × V) (d : List (String × V)) : keys (p :: d) = p.1 :: keys d := rfl

theorem mem_keys_iff (d : List (String × V)) (s : String) :
    s ∈ keys d ↔ ∃ q, q ∈ d ∧ q.1 = s := by
  simp [keys]

theorem lookup_eq_none_iff (d : List (String × V)) (k : String) :
    lookup? d k = none ↔ k ∉ keys d := by
  induction d with
  | nil => simp [lookup?, keys]
  | cons p rest ih =>
    by_cases h : p.1 = k
    · simp [lookup?, keys, h]
    · simp [lookup?, keys, h, ih, Ne.symm h]

theorem mem_keys_of_lookup (d : List (String × V)) (k : String) (v : V)
    (h : lookup? d k = some v) : k ∈ keys d := by
  by_contra hk
  rw [(lookup_eq_none_iff d k).mpr hk] at h
  exact Option.noConfusion h

theorem lookup_of_mem_keys (d : List (String × V)) (k : String) (h : k ∈ keys d) :
    ∃ v, lookup? d k = some v := by
  cases hl : lookup? d k with
  | none => exact absurd h ((lookup_eq_none_iff d k).mp hl)
  | some v => exact ⟨v, rfl⟩

theorem mem_of_lookup (d : List (String × V)) (k : String) (v : V)
    (h : lookup? d k = some v) : (k, v) ∈ d := by
  induction d with
  | nil => exact Option.noConfusion h
  | cons p rest ih =>
    by_cases hk : p.1 = k
    · simp only [lookup?, if_pos hk] at h
      have hp : p = (k, v) := by
        cases p
        simp_all
      rw [← hp]
      exact List.mem_cons_self _ _
    · simp only [lookup?, if_neg hk] at h
      exact List.mem_cons_of_mem _ (ih h)

theorem lookup_self (d : List (String × V)) (hnd : (keys d).Nodup) (p : String × V)
    (hp : p ∈ d) : lookup? d p.1 = some p.2 := by
  induction d with
  | nil => cases hp
  | cons q rest ih =>
    rcases List.mem_cons.mp hp with rfl | hmem
    · simp [lookup?]
    · have hq : ¬ q.1 = p.1 := by
        intro he
        have hm : p.1 ∈ keys rest := (mem_keys_iff rest p.1).mpr ⟨p, hmem, rfl⟩
        exact (List.nodup_cons.mp hnd).1 (he ▸ hm)
      simp only [lookup?, if_neg hq]
      exact ih (List.nodup_cons.mp hnd).2 hmem

theorem mem_pair_eq (d : List (String × V)) (hnd : (keys d).Nodup) (p q : String × V)
    (hp : p ∈ d) (hq : q ∈ d) (h : p.1 = q.1) : p = q := by
  have h1 := lookup_self d hnd p hp
  have h2 := lookup_self d hnd q hq
  rw [h, h2] at h1
  cases p
  cases q
  simp_all

theorem keys_dinsert (d : List (String × V)) (k : String) (v : V) :
    keys (dinsert d k v) = if k ∈ keys d then keys d else keys d ++ [k] := by
  unfold dinsert
  by_cases h : k ∈ keys d
  · rw [if_pos h, if_pos h]
    unfold keys
    rw [List.map_map]
    apply List.map_congr_left
    intro p _
    by_cases hp : p.1 = k
    · simp [Function.comp, hp]
    · simp [Function.comp, hp]
  · rw [if_neg h, if_neg h, keys_append]
    rfl

theorem dinsert_not_mem (d : List (String × V)) (k : String) (v : V) (h : k ∉ keys d) :
    dinsert d k v = d ++ [(k, v)] := by
  unfold dinsert
  rw [if_neg h]

theorem keys_dinsert_nodup (d : List (String × V)) (k : String) (v : V)
    (h : (keys d).Nodup) : (keys (dinsert d k v)).Nodup := by
  rw [keys_dinsert]
  by_cases hm : k ∈ keys d
  · rw [if_pos hm]
    exact h
  · rw [if_neg hm]
    rw [List.nodup_append]
    refine ⟨h, List.nodup_singleton k, ?_⟩
    intro a ha hk
    rw [List.mem_singleton] at hk
    exact hm (hk ▸ ha)

theorem lookup_append (d₁ d₂ : List (String × V)) (k : String) :
    lookup? (d₁ ++ d₂) k =
      match lookup? d₁ k with
      | some v => some v
      | none => lookup? d₂ k := by
  induction d₁ with
  | nil => simp [lookup?]
  | cons p rest ih =>
    by_cases h : p.1 = k
    · simp [lookup?, h]
    · simp [lookup?, h, ih]

end DictLemmas

section MapKeysLemmas

variable {V : Type}

theorem foldl_dinsert_eq_append (ps : List (String × V)) :
    ∀ acc : List (String × V), (keys acc ++ keys ps).Nodup →
      ps.foldl (fun nd q => dinsert nd q.1 q.2) acc = acc ++ ps := by
  induction ps with
  | nil => intro acc _; simp
  | cons q rest ih =>
    intro acc h
    have hq : q.1 ∉ keys acc := by
      intro hmem
      rw [List.nodup_append] at h
      exact h.2.2 hmem (by simp [keys_cons])
    have hq2 : dinsert acc q.1 q.2 = acc ++ [q] :=
      dinsert_not_mem acc q.1 q.2 hq
    have hnd2 : (keys (acc ++ [q]) ++ keys rest).Nodup := by
      rw [keys_append]
      have he : keys acc ++ keys [q] ++ keys rest = keys acc ++ (q.1 :: keys rest) := by
        simp [keys]
      rw [he]
      exact h
    rw [List.foldl_cons, hq2, ih (acc ++ [q]) hnd2, List.append_assoc]
    rfl

theorem phase1_foldl_eq (old : List (String × V)) (m : List (String × String)) :
    ∀ acc : List (String × V),
      m.foldl (fun nd p =>
        match lookup? old p.1 with
        | some v => dinsert nd p.2 v
        | none => nd) acc
      = (mappedPairs old m).foldl (fun nd q => dinsert nd q.1 q.2) acc := by
  induction m with
  | nil => intro acc; rfl
  | cons p rest ih =>
    intro acc
    cases hl : lookup? old p.1 with
    | some v => simp [mappedPairs, List.filterMap_cons, hl, ih]
    | none => simp [mappedPairs, List.filterMap_cons, hl, ih]

theorem map_keys_eq_phases (old : List (String × V)) (m : List (String × String))
    (h : (keys (mappedPairs old m) ++ keys (passPairs old m)).Nodup) :
    map_keys old m = mappedPairs old m ++ passPairs old m := by
  have h1 : (keys (mappedPairs old m)).Nodup := (List.nodup_append.mp h).1
  unfold map_keys
  rw [phase1_foldl_eq old m []]
  have e1 : (mappedPairs old m).foldl (fun nd q => dinsert nd q.1 q.2)
      ([] : List (String × V)) = mappedPairs old m := by
    have he := foldl_dinsert_eq_append (mappedPairs old m) [] (by simpa [keys] using h1)
    simpa using he
  rw [e1]
  exact foldl_dinsert_eq_append (passPairs old m) (mappedPairs old m) h

theorem mem_keys_mappedPairs (old : List (String × V)) (m : List (String × String)) (s : String) :
    s ∈ keys (mappedPairs old m) ↔ ∃ p, p ∈ m ∧ p.1 ∈ keys old ∧ p.2 = s := by
  induction m with
  | nil => simp [mappedPairs, keys]
  | cons p rest ih =>
    cases hl : lookup? old p.1 with
    | some v =>
      have hpk : p.1 ∈ keys old := mem_keys_of_lookup old p.1 v hl
      have he : mappedPairs old (p :: rest) = (p.2, v) :: mappedPairs old rest := by
        simp [mappedPairs, List.filterMap_cons, hl]
      rw [he, keys_cons]
      simp only [List.mem_cons, ih]
      constructor
      · rintro (rfl | ⟨q, hq, hqk, hqs⟩)
        · exact ⟨p, Or.inl rfl, hpk, rfl⟩
        · exact ⟨q, Or.inr hq, hqk, hqs⟩
      · rintro ⟨q, hq | hq, hqk, hqs⟩
        · rw [hq] at hqs
          exact Or.inl hqs.symm
        · exact Or.inr ⟨q, hq, hqk, hqs⟩
    | none =>
      have hpk : p.1 ∉ keys old := (lookup_eq_none_iff old p.1).mp hl
      have he : mappedPairs old (p :: rest) = mappedPairs old rest := by
        simp [mappedPairs, List.filterMap_cons, hl]
      rw [he, ih]
      simp only [List.mem_cons]
      constructor
      · rintro ⟨q, hq, hqk, hqs⟩
        exact ⟨q, Or.inr hq, hqk, hqs⟩
      · rintro ⟨q, hq | hq, hqk, hqs⟩
        · rw [hq] at hqk
          exact absurd hqk hpk
        · exact ⟨q, hq, hqk, hqs⟩

theorem mem_mappedPairs_of (old : List (String × V)) (m : List (String × String))
    (a b : String) (v : V) (ha : (a, b) ∈ m) (hv : lookup? old a = some v) :
    (b, v) ∈ mappedPairs old m := by
  induction m with
  | nil => cases ha
  | cons p rest ih =>
    rcases List.mem_cons.mp ha with he | hmem
    · rw [← he]
      simp [mappedPairs, List.filterMap_cons, hv]
    · cases hl : lookup? old p.1 with
      | some w =>
        have he2 : mappedPairs old (p :: rest) = (p.2, w) :: mappedPairs old rest := by
          simp [mappedPairs, List.filterMap_cons, hl]
        rw [he2]
        exact List.mem_cons_of_mem _ (ih hmem)
      | none =>
        have he2 : mappedPairs old (p :: rest) = mappedPairs old rest := by
          simp [mappedPairs, List.filterMap_cons, hl]
        rw [he2]
        exact ih hmem

end MapKeysLemmas

section MapKeysNodup

variable {V : Type}

theorem keys_mappedPairs_nodup (old : List (String × V)) :
    ∀ m : List (String × String), (keys m).Nodup →
      (∀ p, p ∈ m → ∀ q, q ∈ m → p.1 ∈ keys old → q.1 ∈ keys old → p.2 = q.2 → p = q) →
      (keys (mappedPairs old m)).Nodup := by
  intro m
  induction m with
  | nil =>
    intro _ _
    simp [mappedPairs, keys]
  | cons p rest ih =>
    intro hm hinj
    have hmrest : (keys rest).Nodup := (List.nodup_cons.mp hm).2
    have hinjrest : ∀ a, a ∈ rest → ∀ b, b ∈ rest →
        a.1 ∈ keys old → b.1 ∈ keys old → a.2 = b.2 → a = b :=
      fun a ha b hb => hinj a (List.mem_cons_of_mem _ ha) b (List.mem_cons_of_mem _ hb)
    cases hl : lookup? old p.1 with
    | none =>
      have he : mappedPairs old (p :: rest) = mappedPairs old rest := by
        simp [mappedPairs, List.filterMap_cons, hl]
      rw [he]
      exact ih hmrest hinjrest
    | some v =>
      have he : mappedPairs old (p :: rest) = (p.2, v) :: mappedPairs old rest := by
        simp [mappedPairs, List.filterMap_cons, hl]
      rw [he, keys_cons, List.nodup_cons]
      refine ⟨?_, ih hmrest hinjrest⟩
      intro hmem
      rcases (mem_keys_mappedPairs old rest p.2).mp hmem with ⟨q, hq, hqk, hqv⟩
      have hpq : p = q := hinj p (List.mem_cons_self _ _) q (List.mem_cons_of_mem _ hq)
        (mem_keys_of_lookup old p.1 v hl) hqk hqv.symm
      have hk : p.1 ∈ keys rest := (mem_keys_iff rest p.1).mpr ⟨q, hq, by rw [hpq]⟩
      exact (List.nodup_cons.mp hm).1 hk

theorem injprop_of_newName (old : List (String × V)) (m : List (String × String))
    (hm : (keys m).Nodup) (hinj : ((keys old).map (newName m)).Nodup) :
    ∀ p, p ∈ m → ∀ q, q ∈ m → p.1 ∈ keys old → q.1 ∈ keys old → p.2 = q.2 → p = q := by
  intro p hp q hq hpo hqo hpq
  have e1 : newName m p.1 = p.2 := by simp [newName, lookup_self m hm p hp]
  have e2 : newName m q.1 = q.2 := by simp [newName, lookup_self m hm q hq]
  have hkey : p.1 = q.1 := List.inj_on_of_nodup_map hinj hpo hqo (by rw [e1, e2, hpq])
  exact mem_pair_eq m hm p q hp hq hkey

theorem keys_passPairs_nodup (old : List (String × V)) (m : List (String × String))
    (hold : (keys old).Nodup) : (keys (passPairs old m)).Nodup :=
  ((List.filter_sublist old).map Prod.fst).nodup hold

theorem keys_phases_disjoint (old : List (String × V)) (m : List (String × String))
    (hm : (keys m).Nodup) (hinj : ((keys old).map (newName m)).Nodup) :
    ∀ s, s ∈ keys (mappedPairs old m) → s ∈ keys (passPairs old m) → False := by
  intro s h1 h2
  rcases (mem_keys_mappedPairs old m s).mp h1 with ⟨p, hp, hpk, hps⟩
  rcases (mem_keys_iff _ s).mp h2 with ⟨q, hq, hqs⟩
  have hqmem := List.mem_filter.mp hq
  have hsold : s ∈ keys old := (mem_keys_iff old s).mpr ⟨q, hqmem.1, hqs⟩
  have hsnone : lookup? m s = none := by
    have hd := of_decide_eq_true hqmem.2
    rw [hqs] at hd
    exact hd
  have e1 : newName m p.1 = p.2 := by simp [newName, lookup_self m hm p hp]
  have e2 : newName m s = s := by simp [newName, hsnone]
  have hps1 : p.1 = s := List.inj_on_of_nodup_map hinj hpk hsold (by rw [e1, e2, hps])
  rw [← hps1, lookup_self m hm p hp] at hsnone
  exact Option.noConfusion hsnone

theorem phases_keys_nodup (old : List (String × V)) (m : List (String × String))
    (hm : (keys m).Nodup) (hinj : ((keys old).map (newName m)).Nodup) :
    (keys (mappedPairs old m) ++ keys (passPairs old m)).Nodup := by
  rw [List.nodup_append]
  refine ⟨keys_mappedPairs_nodup old m hm (injprop_of_newName old m hm hinj),
    keys_passPairs_nodup old m hinj.of_map, ?_⟩
  intro a ha hb
  exact keys_phases_disjoint old m hm hinj a ha hb

end MapKeysNodup

section MapKeysCount

variable {V : Type}

theorem length_mappedPairs (old : List (String × V)) (m : List (String × String)) :
    (mappedPairs old m).length
      = ((keys m).filter (fun k => decide (k ∈ keys old))).length := by
  induction m with
  | nil => rfl
  | cons p rest ih =>
    cases hl : lookup? old p.1 with
    | some v =>
      have hpk : p.1 ∈ keys old := mem_keys_of_lookup old p.1 v hl
      have he : mappedPairs old (p :: rest) = (p.2, v) :: mappedPairs old rest := by
        simp [mappedPairs, List.filterMap_cons, hl]
      rw [he, keys_cons, List.filter_cons]
      simp [hpk, ih]
    | none =>
      have hpk : p.1 ∉ keys old := (lookup_eq_none_iff old p.1).mp hl
      have he : mappedPairs old (p :: rest) = mappedPairs old rest := by
        simp [mappedPairs, List.filterMap_cons, hl]
      rw [he, keys_cons, List.filter_cons]
      simp [hpk, ih]

theorem length_passPairs (old : List (String × V)) (m : List (String × String)) :
    (passPairs old m).length
      = ((keys old).filter (fun k => decide (lookup? m k = none))).length := by
  induction old with
  | nil => rfl
  | cons q rest ih =>
    unfold passPairs at ih ⊢
    by_cases hq : lookup? m q.1 = none
    · simp [List.filter_cons, keys_cons, hq, ih]
    · simp [List.filter_cons, keys_cons, hq, ih]

theorem length_filter_or :
    ∀ ys : List String, ys.Nodup → ∀ (a : String) (rs : List String), a ∉ rs →
      (ys.filter (fun k => decide (k = a ∨ k ∈ rs))).length
        = (if a ∈ ys then 1 else 0) + (ys.filter (fun k => decide (k ∈ rs))).length := by
  intro ys
  induction ys with
  | nil => intro _ a rs _; simp
  | cons y t ih =>
    intro hy a rs ha
    have hynd := List.nodup_cons.mp hy
    by_cases hya : y = a
    · subst hya
      have hfil : t.filter (fun k => decide (k = y ∨ k ∈ rs))
          = t.filter (fun k => decide (k ∈ rs)) := by
        apply List.filter_congr
        intro k hk
        have hk2 : ¬ k = y := fun he => hynd.1 (he ▸ hk)
        simp [hk2]
      simp only [List.filter_cons, hfil]
      simp [ha]
      omega
    · have hxa : ¬ a = y := fun he => hya he.symm
      have iht := ih hynd.2 a rs ha
      simp only [Bool.decide_or] at iht
      by_cases hyr : y ∈ rs <;> by_cases hat : a ∈ t <;>
        · simp [List.filter_cons, hya, hyr, hat, hxa, List.mem_cons, iht]
          try omega

theorem filter_mem_length_comm (xs ys : List String) :
    xs.Nodup → ys.Nodup →
      (xs.filter (fun k => decide (k ∈ ys))).length
        = (ys.filter (fun k => decide (k ∈ xs))).length := by
  induction xs with
  | nil => intro _ _; simp
  | cons x t ih =>
    intro hx hyy
    have hx2 := List.nodup_cons.mp hx
    have hr : ys.filter (fun k => decide (k ∈ x :: t))
        = ys.filter (fun k => decide (k = x ∨ k ∈ t)) := by
      apply List.filter_congr
      intro k _
      simp [List.mem_cons]
    rw [hr, length_filter_or ys hyy x t hx2.1, List.filter_cons]
    by_cases hxy : x ∈ ys
    · simp [hxy, ih hx2.2 hyy]
      omega
    · simp [hxy, ih hx2.2 hyy]

theorem length_filter_not_split {α : Type} (l : List α) (p : α → Bool) :
    (l.filter p).length + (l.filter (fun a => ! p a)).length = l.length := by
  induction l with
  | nil => rfl
  | cons a t ih =>
    cases h : p a <;> simp [List.filter_cons, h] <;> omega

end MapKeysCount

/-- C4 as amended: `map_keys` preserves the number of entries whenever the
effective renaming (the new name for mapped keys, the key itself for
unmapped ones) is injective over the dict's keys, i.e. produces no
collisions; the key lists are those of Python dicts, hence duplicate-free. -/
theorem map_keys_preserves_card {V : Type} (old_dict : List (String × V))
    (m : List (String × String)) (hm : (keys m).Nodup)
    (hinj : ((keys old_dict).map (newName m)).Nodup) :
    (map_keys old_dict m).length = old_dict.length := by
  rw [map_keys_eq_phases old_dict m (phases_keys_nodup old_dict m hm hinj)]
  rw [List.length_append, length_mappedPairs, length_passPairs]
  rw [filter_mem_length_comm (keys m) (keys old_dict) hm hinj.of_map]
  have he : (keys old_dict).filter (fun k => decide (lookup? m k = none))
      = (keys old_dict).filter (fun k => ! decide (k ∈ keys m)) := by
    apply List.filter_congr
    intro k _
    by_cases hk : k ∈ keys m
    · rcases lookup_of_mem_keys m k hk with ⟨v, hv⟩
      simp [hv, hk]
    · simp [(lookup_eq_none_iff m k).mpr hk, hk]
  rw [he, length_filter_not_split (keys old_dict) (fun k => decide (k ∈ keys m))]
  simp [keys]

/-- Concrete run of the amended C4 statement: renaming `x` to `a` in a
two-entry dict is collision-free and the entry count is preserved. -/
theorem map_keys_preserves_card_witness :
    (keys [("x", "a")]).Nodup ∧
      ((keys [("x", (1 : Nat)), ("y", 2)]).map (newName [("x", "a")])).Nodup ∧
      (map_keys [("x", (1 : Nat)), ("y", 2)] [("x", "a")]).length
        = [("x", (1 : Nat)), ("y", 2)].length :=
  ⟨by decide, by decide,
    map_keys_preserves_card [("x", 1), ("y", 2)] [("x", "a")] (by decide) (by decide)⟩

/-- C5 as amended: when the effective renaming is injective over the dict's
keys (no collisions), every entry of `old_dict` appears in the result under
its effective new name (its mapped name when mapped, its own name otherwise)
with its original value, and every key of the result is the effective new
name of some entry of `old_dict`. -/
theorem map_keys_functional {V : Type} (old_dict : List (String × V))
    (m : List (String × String)) (hm : (keys m).Nodup)
    (hinj : ((keys old_dict).map (newName m)).Nodup) :
    (∀ p, p ∈ old_dict → lookup? (map_keys old_dict m) (newName m p.1) = some p.2) ∧
      (∀ s, s ∈ keys (map_keys old_dict m) → ∃ p, p ∈ old_dict ∧ s = newName m p.1) := by
  have hnd := phases_keys_nodup old_dict m hm hinj
  have heq := map_keys_eq_phases old_dict m hnd
  have hold : (keys old_dict).Nodup := hinj.of_map
  have hndm : (keys (mappedPairs old_dict m)).Nodup := (List.nodup_append.mp hnd).1
  have hndp : (keys (passPairs old_dict m)).Nodup := (List.nodup_append.mp hnd).2.1
  constructor
  · intro p hp
    rw [heq, lookup_append]
    cases hl : lookup? m p.1 with
    | none =>
      have hnew : newName m p.1 = p.1 := by simp [newName, hl]
      rw [hnew]
      have hnotP1 : lookup? (mappedPairs old_dict m) p.1 = none := by
        rw [lookup_eq_none_iff]
        intro hmem
        rcases (mem_keys_mappedPairs old_dict m p.1).mp hmem with ⟨q, hq, hqk, hqs⟩
        have e1 : newName m q.1 = q.2 := by simp [newName, lookup_self m hm q hq]
        have e2 : newName m p.1 = p.1 := by simp [newName, hl]
        have hpk : p.1 ∈ keys old_dict := (mem_keys_iff _ _).mpr ⟨p, hp, rfl⟩
        have hq1 : q.1 = p.1 := List.inj_on_of_nodup_map hinj hqk hpk (by rw [e1, e2, hqs])
        rw [← hq1, lookup_self m hm q hq] at hl
        exact Option.noConfusion hl
      rw [hnotP1]
      have hpP2 : p ∈ passPairs old_dict m := by
        unfold passPairs
        rw [List.mem_filter]
        exact ⟨hp, by simp [hl]⟩
      exact lookup_self _ hndp p hpP2
    | some nk =>
      have hnew : newName m p.1 = nk := by simp [newName, hl]
      rw [hnew]
      have hval : lookup? old_dict p.1 = some p.2 := lookup_self old_dict hold p hp
      have hmemP1 : (nk, p.2) ∈ mappedPairs old_dict m :=
        mem_mappedPairs_of old_dict m p.1 nk p.2 (mem_of_lookup m p.1 nk hl) hval
      rw [lookup_self _ hndm (nk, p.2) hmemP1]
  · intro s hs
    rw [heq, keys_append] at hs
    rcases List.mem_append.mp hs with hs1 | hs2
    · rcases (mem_keys_mappedPairs old_dict m s).mp hs1 with ⟨q, hq, hqk, hqs⟩
      rcases lookup_of_mem_keys old_dict q.1 hqk with ⟨v, hv⟩
      refine ⟨(q.1, v), mem_of_lookup old_dict q.1 v hv, ?_⟩
      have he : newName m q.1 = q.2 := by simp [newName, lookup_self m hm q hq]
      rw [he, hqs]
    · rcases (mem_keys_iff _ s).mp hs2 with ⟨q, hq, hqs⟩
      have hqf := List.mem_filter.mp hq
      have hnone : lookup? m s = none := by
        have hd := of_decide_eq_true hqf.2
        rw [hqs] at hd
        exact hd
      refine ⟨q, hqf.1, ?_⟩
      rw [hqs]
      simp [newName, hnone]

/-- Concrete run of the amended C5 statement: the mapped entry survives
under its new name with its value, the unmapped entry under its own name. -/
theorem map_keys_functional_witness :
    lookup? (map_keys [("x", (1 : Nat)), ("y", 2)] [("x", "a")]) "a" = some 1 ∧
      lookup? (map_keys [("x", (1 : Nat)), ("y", 2)] [("x", "a")]) "y" = some 2 := by
  have h := (map_keys_functional [("x", (1 : Nat)), ("y", 2)] [("x", "a")]
    (by decide) (by decide)).1
  exact ⟨h ("x", 1) (by decide), h ("y", 2) (by decide)⟩

theorem foldl_dinsert_keyfun_nodup {V : Type} (w : (String × V) → V) :
    ∀ (state acc : List (String × V)), (keys acc).Nodup →
      (keys (state.foldl (fun nd q => dinsert nd q.1 (w q)) acc)).Nodup := by
  intro state
  induction state with
  | nil => intro acc h; exact h
  | cons q rest ih =>
    intro acc h
    rw [List.foldl_cons]
    exact ih _ (keys_dinsert_nodup _ _ _ h)

theorem apply_restart_metadata_eq_keyfun (props : List (String × VarProperties))
    (state : List (String × DataArray)) :
    apply_restart_metadata props state
      = state.foldl (fun nd q => dinsert nd q.1 (
          match lookup? props q.1 with
          | some properties =>
            let da := apply_dims q.2 properties.dims
            { da with attrs := dinsert da.attrs "units" properties.units }
          | none => q.2)) [] := by
  unfold apply_restart_metadata
  congr 1
  funext nd q
  cases hl : lookup? props q.1 <;> simp [hl]

theorem apply_restart_metadata_keys_nodup (props : List (String × VarProperties))
    (state : List (String × DataArray)) :
    (keys (apply_restart_metadata props state)).Nodup := by
  rw [apply_restart_metadata_eq_keyfun]
  exact foldl_dinsert_keyfun_nodup _ state [] (by simp [keys])

/-- C8: every non-`time` entry of the state dict built by
`load_partial_state_from_restart_file` carries a `units` attribute, and any
variable of the metadata-applied state that lacks a `units` attribute (i.e.
has no restart metadata and none from the file) and is not `time` is absent
from the final state. -/
theorem load_partial_state_units_invariant (standard_names : List (String × String))
    (props : List (String × VarProperties)) (data_vars : List (String × DataArray))
    (only_names : Option (List String)) :
    (∀ p, p ∈ load_partial_state_internal standard_names props data_vars only_names →
        p.1 ≠ "time" → lookup? p.2.attrs "units" ≠ none) ∧
      (∀ p, p ∈ apply_restart_metadata props (map_keys data_vars standard_names) →
        p.1 ≠ "time" → lookup? p.2.attrs "units" = none →
        p.1 ∉ keys (load_partial_state_internal standard_names props data_vars only_names)) := by
  constructor
  · intro p hp hne
    simp only [load_partial_state_internal] at hp
    have h2 := List.mem_filter.mp hp
    have hpred := of_decide_eq_true h2.2
    rcases hpred.1 with h | h
    · exact absurd h hne
    · exact h
  · intro p hpS hne hnone hk
    rcases (mem_keys_iff _ _).mp hk with ⟨q, hq, hq1⟩
    simp only [load_partial_state_internal] at hq
    have h2 := List.mem_filter.mp hq
    have hnd : (keys (apply_restart_metadata props (map_keys data_vars standard_names))).Nodup :=
      apply_restart_metadata_keys_nodup _ _
    have hqp : q = p := mem_pair_eq _ hnd q p h2.1 hpS hq1
    have hpred := of_decide_eq_true h2.2
    rcases hpred.1 with h | h
    · rw [hqp] at h
      exact hne h
    · rw [hqp] at h
      exact h hnone

/-- Concrete run of the C8 invariant: the one retained variable of the C1
example dataset carries its `units` attribute. -/
theorem load_partial_state_units_invariant_witness :
    lookup? ({ dims := ["z", "y", "x"], attrs := [("units", "degK")], data := [42] }
      : DataArray).attrs "units" ≠ none :=
  (load_partial_state_units_invariant
      [("T", "air_temperature")]
      [("air_temperature", { dims := ["z", "y", "x"], units := "degK" })]
      [("T", { dims := ["zaxis_1", "yaxis_1", "xaxis_1"], attrs := [], data := [42] })]
      (some ["air_temperature"])).1
    ("air_temperature", { dims := ["z", "y", "x"], attrs := [("units", "degK")], data := [42] })
    (by decide) (by decide)
